import Mathlib

/-!
Verification of the working-hours interval model of
`Telegram/SourceFiles/data/business/data_business_common.h`.

`TimeId` is a signed integer count of seconds; it is modelled as `Int`
(the spec's domain is week-relative seconds, far from any overflow).
The C++ field `end` is named `end'` here because `end` is a Lean keyword.
`QString` is modelled as `String`.
-/

namespace Business

/-- Embedding of `Data::WorkingInterval`: a half-open time interval
`[start, end)` in seconds. -/
@[ext]
structure WorkingInterval where
  start : Int
  end' : Int
deriving DecidableEq, Repr

namespace WorkingInterval

/-- Embedding of `WorkingInterval::kDay = 24 * 3600`. -/
def kDay : Int := 24 * 3600

/-- Embedding of `WorkingInterval::kWeek = 7 * kDay`. -/
def kWeek : Int := 7 * kDay

/-- Embedding of `WorkingInterval::kInNextDayMax = 6 * 3600`. -/
def kInNextDayMax : Int := 6 * 3600

/-- Embedding of `explicit operator bool()`: `return start < end;`. -/
def toBool (a : WorkingInterval) : Bool :=
  decide (a.start < a.end')

/-- Embedding of `shifted(offset)`: `return { start + offset, end + offset };`. -/
def shifted (a : WorkingInterval) (offset : Int) : WorkingInterval :=
  ⟨a.start + offset, a.end' + offset⟩

/-- Embedding of `united(other)`: empty operands are identities, otherwise
the bounding interval of the two operands. -/
def united (a other : WorkingInterval) : WorkingInterval :=
  if !a.toBool then other
  else if !other.toBool then a
  else ⟨min a.start other.start, max a.end' other.end'⟩

/-- Embedding of `intersected(other)`: the candidate
`{ max(start), min(end) }`, replaced by the default-constructed
`WorkingInterval()` (= `{0, 0}`) when it is empty. -/
def intersected (a other : WorkingInterval) : WorkingInterval :=
  let result : WorkingInterval := ⟨max a.start other.start, min a.end' other.end'⟩
  if result.toBool then result else ⟨0, 0⟩

/-- Specification-level point membership: `t` lies in the half-open
interval `[start, end)`. -/
def coversTime (a : WorkingInterval) (t : Int) : Prop :=
  a.start ≤ t ∧ t < a.end'

instance (a : WorkingInterval) (t : Int) : Decidable (a.coversTime t) := by
  unfold coversTime; infer_instance

end WorkingInterval

/-- Specification-level overlap of two half-open intervals: a common point. -/
def Overlaps (a b : WorkingInterval) : Prop :=
  ∃ t : Int, a.coversTime t ∧ b.coversTime t

/-- Embedding of `Data::WorkingIntervals`: the raw ordered list of intervals. -/
@[ext]
structure WorkingIntervals where
  list : List WorkingInterval
deriving DecidableEq, Repr

/-- Embedding of `WorkingIntervals::operator bool()`: the loop returning
`true` on the first truthy interval, `false` after the loop. -/
def WorkingIntervals.toBool (s : WorkingIntervals) : Bool :=
  s.list.any (fun i => i.toBool)

/-- Sort order used by normalization: by `start` ascending, ties broken by
`end` ascending (spec section 4.2, step 2). -/
def intervalLE (a b : WorkingInterval) : Prop :=
  a.start < b.start ∨ (a.start = b.start ∧ a.end' ≤ b.end')

instance : DecidableRel intervalLE := fun a b => by
  unfold intervalLE; infer_instance

instance : IsTotal WorkingInterval intervalLE :=
  ⟨fun a b => by unfold intervalLE; omega⟩

instance : IsTrans WorkingInterval intervalLE :=
  ⟨fun a b c hab hbc => by unfold intervalLE at *; omega⟩

/-- Modelled from the spec: the sweep of normalization step 3, merging each
interval into the running accumulator via `united` whenever
`next.start <= accumulator.end`, otherwise flushing the accumulator. -/
def mergeGo (acc : WorkingInterval) : List WorkingInterval → List WorkingInterval
  | [] => [acc]
  | b :: rest =>
    if b.start ≤ acc.end' then mergeGo (acc.united b) rest
    else acc :: mergeGo b rest

/-- Modelled from the spec: normalization steps 3 and 4 — sweep left to
right over the sorted list, flushing the final accumulator. -/
def mergeSweep : List WorkingInterval → List WorkingInterval
  | [] => []
  | a :: rest => mergeGo a rest

/-- Modelled from the spec: `WorkingIntervals::normalized()` is declared in
`data_business_common.h` but its body is not part of the excerpt. The spec's
algorithm (section 4.2): (1) discard empty intervals, (2) sort by `start`
ascending with ties broken by `end` ascending, (3)–(4) sweep merging
overlapping or touching intervals via `united`. For the week-wraparound
step 5 the spec itself flags the exact rule as an open question and directs
implementers to choose and document a conservative rule; the rule chosen
here is that a bounded overshoot past `kWeek` is retained explicitly on its
interval (never dropped or duplicated) and no merging across the wrap point
is performed. -/
def WorkingIntervals.normalized (s : WorkingIntervals) : WorkingIntervals :=
  ⟨mergeSweep (List.insertionSort intervalLE (s.list.filter (fun i => i.toBool)))⟩

/-- Embedding of `Data::WorkingHours`: intervals plus a timezone id. -/
structure WorkingHours where
  intervals : WorkingIntervals
  timezoneId : String
deriving DecidableEq, Repr

/-- Embedding of `WorkingHours::normalized()`:
`return { intervals.normalized(), timezoneId };`. -/
def WorkingHours.normalized (h : WorkingHours) : WorkingHours :=
  ⟨h.intervals.normalized, h.timezoneId⟩

/-- Embedding of `WorkingHours::operator bool()`:
`return !timezoneId.isEmpty();`. -/
def WorkingHours.toBool (h : WorkingHours) : Bool :=
  !h.timezoneId.isEmpty

/-- Modelled from the spec: a day's window (section 4.3) — the nominal
window `[dayIndex * kDay, (dayIndex + 1) * kDay)` extended by up to
`kInNextDayMax` seconds past its end. -/
def dayWindow (dayIndex : Int) : WorkingInterval :=
  ⟨dayIndex * WorkingInterval.kDay,
    (dayIndex + 1) * WorkingInterval.kDay + WorkingInterval.kInNextDayMax⟩

/-- Modelled from the spec: `ExtractDayIntervals` is declared in
`data_business_common.h` but its body is not part of the excerpt. Per the
spec it returns the sub-list of intervals clipped via `intersected` to the
day's extended window; the result is expressed day-relative (shifted by
`-dayIndex * kDay`), the representation forced by `ReplaceDayIntervals`
shifting its replacement onto the day's absolute position. -/
def ExtractDayIntervals (intervals : WorkingIntervals) (dayIndex : Int) :
    WorkingIntervals :=
  ⟨((intervals.list.map (fun i => i.intersected (dayWindow dayIndex))).filter
      (fun i => i.toBool)).map
    (fun i => i.shifted (-(dayIndex * WorkingInterval.kDay)))⟩

/-- Modelled from the spec: the subtraction of a window from one interval —
the interval is split or truncated into the part before the window and the
part after it; empty parts are dropped, an interval entirely outside the
window passes through unchanged. -/
def cutWindow (w i : WorkingInterval) : List WorkingInterval :=
  [WorkingInterval.mk i.start (min i.end' w.start),
    WorkingInterval.mk (max i.start w.end') i.end'].filter (fun j => j.toBool)

/-- Modelled from the spec: `RemoveDayIntervals` is declared in
`data_business_common.h` but its body is not part of the excerpt. Per the
spec it subtracts the day's (extended) window from every interval. -/
def RemoveDayIntervals (intervals : WorkingIntervals) (dayIndex : Int) :
    WorkingIntervals :=
  ⟨(intervals.list.map (cutWindow (dayWindow dayIndex))).flatten⟩

/-- Modelled from the spec: `ReplaceDayIntervals` is declared in
`data_business_common.h` but its body is not part of the excerpt. Per the
spec it is `RemoveDayIntervals` followed by inserting the replacement
shifted onto the day's absolute position, then re-normalizing. -/
def ReplaceDayIntervals (intervals : WorkingIntervals) (dayIndex : Int)
    (replacement : WorkingIntervals) : WorkingIntervals :=
  WorkingIntervals.normalized
    ⟨(RemoveDayIntervals intervals dayIndex).list
      ++ replacement.list.map
        (fun i => i.shifted (dayIndex * WorkingInterval.kDay))⟩

/-- Specification-level coverage of a point by a list of intervals. -/
def coveredAt (l : List WorkingInterval) (t : Int) : Prop :=
  ∃ i ∈ l, i.coversTime t

/-- Canonical form after the spec's claim C1: an interval is either truly
nonempty or exactly the canonical empty `{0, 0}`. -/
def IsCanonical (a : WorkingInterval) : Prop :=
  a.start < a.end' ∨ a = ⟨0, 0⟩

/-- Specification-level canonical form of a normalized list: every interval
nonempty, and each interval ends strictly before any later one starts. -/
def CanonList (l : List WorkingInterval) : Prop :=
  (∀ i ∈ l, i.start < i.end')
    ∧ l.Pairwise (fun a b => a.end' < b.start)

/-! Helper lemmas about the interval operations. -/

theorem toBool_iff (a : WorkingInterval) : a.toBool = true ↔ a.start < a.end' := by
  simp [WorkingInterval.toBool]

theorem united_of_left_empty {a : WorkingInterval} (b : WorkingInterval)
    (h : ¬ a.start < a.end') : a.united b = b := by
  simp [WorkingInterval.united, WorkingInterval.toBool, h]

theorem united_of_right_empty {a b : WorkingInterval}
    (ha : a.start < a.end') (hb : ¬ b.start < b.end') : a.united b = a := by
  simp [WorkingInterval.united, WorkingInterval.toBool, ha, hb]

theorem united_of_nonempty {a b : WorkingInterval}
    (ha : a.start < a.end') (hb : b.start < b.end') :
    a.united b = ⟨min a.start b.start, max a.end' b.end'⟩ := by
  simp [WorkingInterval.united, WorkingInterval.toBool, ha, hb]

theorem intersected_eq (a b : WorkingInterval) :
    a.intersected b =
      if max a.start b.start < min a.end' b.end' then
        (⟨max a.start b.start, min a.end' b.end'⟩ : WorkingInterval)
      else ⟨0, 0⟩ := by
  simp [WorkingInterval.intersected, WorkingInterval.toBool]

/-- C1 fails as stated: `shifted` does not renormalize an empty result. The
canonical empty interval shifted by 5 has `start >= end` but is `{5, 5}`,
not the canonical empty `{0, 0}`. -/
theorem c1_counterexample :
    (WorkingInterval.shifted ⟨0, 0⟩ 5).end' ≤ (WorkingInterval.shifted ⟨0, 0⟩ 5).start
      ∧ WorkingInterval.shifted ⟨0, 0⟩ 5 ≠ (⟨0, 0⟩ : WorkingInterval) := by
  decide

/-- C1 (amended): `intersected` preserves canonical emptiness
unconditionally, for arbitrary operands; `united` preserves it when both
operands are canonical; `shifted` translates both endpoints without
normalizing, so it is excluded. -/
theorem c1_united_intersected_canonical (a b : WorkingInterval) :
    (IsCanonical a → IsCanonical b →
      (a.united b).end' ≤ (a.united b).start → a.united b = ⟨0, 0⟩)
      ∧ ((a.intersected b).end' ≤ (a.intersected b).start →
        a.intersected b = ⟨0, 0⟩) := by
  constructor
  · intro ha hb hle
    by_cases h1 : a.start < a.end'
    · by_cases h2 : b.start < b.end'
      · rw [united_of_nonempty h1 h2] at hle ⊢
        simp only at hle
        omega
      · rw [united_of_right_empty h1 h2] at hle ⊢
        exact ha.resolve_left (by omega)
    · rw [united_of_left_empty b h1] at hle ⊢
      rcases hb with hb | hb
      · omega
      · exact hb
  · intro hle
    rw [intersected_eq] at hle ⊢
    by_cases h : max a.start b.start < min a.end' b.end'
    · rw [if_pos h] at hle
      simp only at hle
      omega
    · rw [if_neg h]

/-- C1 (amended) witness: the united clause at concrete canonical inputs,
and the intersected clause at a non-canonical operand, exhibiting its
unconditional scope. -/
theorem c1_witness :
    (WorkingInterval.united ⟨0, 0⟩ ⟨0, 0⟩).end' ≤
        (WorkingInterval.united ⟨0, 0⟩ ⟨0, 0⟩).start
      ∧ WorkingInterval.united ⟨0, 0⟩ ⟨0, 0⟩ = ⟨0, 0⟩
      ∧ WorkingInterval.intersected ⟨5, 3⟩ ⟨1, 9⟩ = ⟨0, 0⟩ := by
  refine ⟨by decide, ?_, ?_⟩
  · exact (c1_united_intersected_canonical ⟨0, 0⟩ ⟨0, 0⟩).1 (Or.inr rfl)
      (Or.inr rfl) (by decide)
  · exact (c1_united_intersected_canonical ⟨5, 3⟩ ⟨1, 9⟩).2 (by decide)

/-- C2: `united` returns the other operand when one is empty, and the
bounding interval `{min start, max end}` when both are nonempty, whether or
not they overlap. -/
theorem c2_united_spec (a b : WorkingInterval) :
    (¬ a.start < a.end' → a.united b = b)
      ∧ (a.start < a.end' → ¬ b.start < b.end' → a.united b = a)
      ∧ (a.start < a.end' → b.start < b.end' →
        a.united b = ⟨min a.start b.start, max a.end' b.end'⟩) :=
  ⟨fun h => united_of_left_empty b h,
    fun ha hb => united_of_right_empty ha hb,
    fun ha hb => united_of_nonempty ha hb⟩

/-- C2 witness: the three cases evaluated at concrete intervals, the last
one on non-overlapping operands. -/
theorem c2_witness :
    WorkingInterval.united ⟨5, 5⟩ ⟨1, 3⟩ = ⟨1, 3⟩
      ∧ WorkingInterval.united ⟨1, 3⟩ ⟨7, 6⟩ = ⟨1, 3⟩
      ∧ WorkingInterval.united ⟨1, 3⟩ ⟨6, 9⟩ = ⟨1, 9⟩ := by
  refine ⟨(c2_united_spec ⟨5, 5⟩ ⟨1, 3⟩).1 (by decide),
    (c2_united_spec ⟨1, 3⟩ ⟨7, 6⟩).2.1 (by decide) (by decide), ?_⟩
  have h := (c2_united_spec ⟨1, 3⟩ ⟨6, 9⟩).2.2 (by decide) (by decide)
  rw [h]
  decide

/-- C3: `intersected` returns `{max start, min end}` exactly when that
candidate is nonempty, which happens exactly when the operands overlap, and
returns the canonical empty `{0, 0}` otherwise. -/
theorem c3_intersected_spec (a b : WorkingInterval) :
    (Overlaps a b ↔ max a.start b.start < min a.end' b.end')
      ∧ (max a.start b.start < min a.end' b.end' →
        a.intersected b = ⟨max a.start b.start, min a.end' b.end'⟩)
      ∧ (¬ max a.start b.start < min a.end' b.end' →
        a.intersected b = ⟨0, 0⟩) := by
  refine ⟨⟨?_, ?_⟩, ?_, ?_⟩
  · rintro ⟨t, ⟨h1, h2⟩, h3, h4⟩
    omega
  · intro h
    exact ⟨max a.start b.start, ⟨by omega, by omega⟩, by omega, by omega⟩
  · intro h
    rw [intersected_eq, if_pos h]
  · intro h
    rw [intersected_eq, if_neg h]

/-- C3 witness: overlap characterization and both branches at concrete
inputs. -/
theorem c3_witness :
    Overlaps ⟨0, 5⟩ ⟨3, 8⟩
      ∧ WorkingInterval.intersected ⟨0, 5⟩ ⟨3, 8⟩ = ⟨3, 5⟩
      ∧ WorkingInterval.intersected ⟨0, 3⟩ ⟨5, 8⟩ = ⟨0, 0⟩ := by
  refine ⟨(c3_intersected_spec ⟨0, 5⟩ ⟨3, 8⟩).1.mpr (by decide), ?_,
    (c3_intersected_spec ⟨0, 3⟩ ⟨5, 8⟩).2.2 (by decide)⟩
  have h := (c3_intersected_spec ⟨0, 5⟩ ⟨3, 8⟩).2.1 (by decide)
  rw [h]
  decide

/-- C6: `united` is commutative on nonempty operands that overlap or
touch. -/
theorem c6_united_comm (a b : WorkingInterval)
    (ha : a.start < a.end') (hb : b.start < b.end')
    (htouch : a.start ≤ b.end' ∧ b.start ≤ a.end') :
    a.united b = b.united a := by
  rw [united_of_nonempty ha hb, united_of_nonempty hb ha,
    min_comm, max_comm]

/-- C6 witness at concrete overlapping nonempty intervals. -/
theorem c6_witness :
    WorkingInterval.united ⟨0, 5⟩ ⟨3, 8⟩ = WorkingInterval.united ⟨3, 8⟩ ⟨0, 5⟩ :=
  c6_united_comm ⟨0, 5⟩ ⟨3, 8⟩ (by decide) (by decide) ⟨by decide, by decide⟩

/-- C7: shifting by `+kWeek` then `-kWeek` is the identity, and `shifted`
translates both endpoints by the offset with no clamping. -/
theorem c7_shifted_roundtrip (a : WorkingInterval) (offset : Int) :
    (a.shifted WorkingInterval.kWeek).shifted (-WorkingInterval.kWeek) = a
      ∧ a.shifted offset = ⟨a.start + offset, a.end' + offset⟩ := by
  obtain ⟨s, e⟩ := a
  refine ⟨?_, rfl⟩
  simp [WorkingInterval.shifted]

/-- C8: the `bool` conversion of an interval is exactly `start < end`, and
the falsy (canonically empty, per the spec glossary) state is exactly
`start >= end`. -/
theorem c8_bool_iff (a : WorkingInterval) :
    (a.toBool = true ↔ a.start < a.end')
      ∧ (a.toBool = false ↔ a.end' ≤ a.start) := by
  constructor
  · exact toBool_iff a
  · rw [← Bool.not_eq_true, toBool_iff]
    omega

/-- C9: a `WorkingHours` value is truthy exactly when its timezone id is a
nonempty string, independently of its intervals. -/
theorem c9_hours_bool (h h2 : WorkingHours) :
    (h.toBool = true ↔ h.timezoneId ≠ "")
      ∧ (h.timezoneId = h2.timezoneId → h.toBool = h2.toBool) := by
  constructor
  · have hiff : h.timezoneId.isEmpty = true ↔ h.timezoneId = "" :=
      String.isEmpty_iff h.timezoneId
    simp only [WorkingHours.toBool, Bool.not_eq_true', ne_eq, ← hiff,
      Bool.not_eq_true]
  · intro heq
    simp [WorkingHours.toBool, heq]

/-- C9 witness: a set timezone with no intervals is truthy, and truthiness
agrees across different interval lists with the same timezone id. -/
theorem c9_witness :
    (WorkingHours.mk ⟨[]⟩ "UTC").toBool = true
      ∧ (WorkingHours.mk ⟨[]⟩ "UTC").toBool
        = (WorkingHours.mk ⟨[⟨0, 5⟩]⟩ "UTC").toBool :=
  ⟨(c9_hours_bool (WorkingHours.mk ⟨[]⟩ "UTC") (WorkingHours.mk ⟨[]⟩ "UTC")).1.mpr
      (by decide),
    (c9_hours_bool (WorkingHours.mk ⟨[]⟩ "UTC")
      (WorkingHours.mk ⟨[⟨0, 5⟩]⟩ "UTC")).2 rfl⟩

/-- C10: a `WorkingIntervals` value is truthy exactly when some interval in
its list is nonempty; a list of only empty intervals, or the empty list,
converts to false. -/
theorem c10_intervals_bool (s : WorkingIntervals) :
    (s.toBool = true ↔ ∃ i ∈ s.list, i.start < i.end')
      ∧ ((∀ i ∈ s.list, ¬ i.start < i.end') → s.toBool = false)
      ∧ (WorkingIntervals.mk []).toBool = false := by
  refine ⟨?_, ?_, rfl⟩
  · simp [WorkingIntervals.toBool, List.any_eq_true, toBool_iff]
  · intro hall
    simp only [WorkingIntervals.toBool, List.any_eq_false]
    intro i hi
    have hx := hall i hi
    simp [toBool_iff]
    omega

/-- C10 witness: a nonempty list consisting solely of empty intervals is
falsy. -/
theorem c10_witness :
    (WorkingIntervals.mk [⟨5, 5⟩, ⟨7, 3⟩]).toBool = false :=
  (c10_intervals_bool (WorkingIntervals.mk [⟨5, 5⟩, ⟨7, 3⟩])).2.1 (by decide)

/-! Point-coverage lemmas used for the normalization claims. -/

theorem coversTime_toBool {i : WorkingInterval} {t : Int}
    (h : i.coversTime t) : i.toBool = true := by
  obtain ⟨h1, h2⟩ := h
  rw [toBool_iff]
  omega

theorem coveredAt_nil (t : Int) : ¬ coveredAt [] t := by
  simp [coveredAt]

theorem coveredAt_cons {a : WorkingInterval} {l : List WorkingInterval}
    {t : Int} : coveredAt (a :: l) t ↔ a.coversTime t ∨ coveredAt l t := by
  simp [coveredAt, List.exists_mem_cons_iff]

theorem coveredAt_append {l1 l2 : List WorkingInterval} {t : Int} :
    coveredAt (l1 ++ l2) t ↔ coveredAt l1 t ∨ coveredAt l2 t := by
  simp [coveredAt, List.mem_append, or_and_right, exists_or]

theorem coveredAt_perm {l1 l2 : List WorkingInterval}
    (h : List.Perm l1 l2) (t : Int) : coveredAt l1 t ↔ coveredAt l2 t := by
  unfold coveredAt
  constructor
  · rintro ⟨i, hi, hc⟩
    exact ⟨i, h.mem_iff.mp hi, hc⟩
  · rintro ⟨i, hi, hc⟩
    exact ⟨i, h.mem_iff.mpr hi, hc⟩

theorem coveredAt_filter_toBool (l : List WorkingInterval) (t : Int) :
    coveredAt (l.filter (fun i => i.toBool)) t ↔ coveredAt l t := by
  unfold coveredAt
  constructor
  · rintro ⟨i, hi, hc⟩
    exact ⟨i, (List.mem_filter.mp hi).1, hc⟩
  · rintro ⟨i, hi, hc⟩
    exact ⟨i, List.mem_filter.mpr ⟨hi, coversTime_toBool hc⟩, hc⟩

theorem coveredAt_map (l : List WorkingInterval)
    (f : WorkingInterval → WorkingInterval) (t : Int) :
    coveredAt (l.map f) t ↔ ∃ i ∈ l, (f i).coversTime t := by
  unfold coveredAt
  constructor
  · rintro ⟨j, hj, hc⟩
    obtain ⟨i, hi, rfl⟩ := List.mem_map.mp hj
    exact ⟨i, hi, hc⟩
  · rintro ⟨i, hi, hc⟩
    exact ⟨f i, List.mem_map.mpr ⟨i, hi, rfl⟩, hc⟩

theorem coveredAt_flatten_map (l : List WorkingInterval)
    (g : WorkingInterval → List WorkingInterval) (t : Int) :
    coveredAt (l.map g).flatten t ↔ ∃ i ∈ l, coveredAt (g i) t := by
  unfold coveredAt
  constructor
  · rintro ⟨j, hj, hc⟩
    obtain ⟨L, hL, hjL⟩ := List.mem_flatten.mp hj
    obtain ⟨i, hi, rfl⟩ := List.mem_map.mp hL
    exact ⟨i, hi, j, hjL, hc⟩
  · rintro ⟨i, hi, j, hjL, hc⟩
    exact ⟨j, List.mem_flatten.mpr ⟨g i, List.mem_map.mpr ⟨i, hi, rfl⟩, hjL⟩, hc⟩

theorem shifted_shifted (i : WorkingInterval) (x y : Int) :
    (i.shifted x).shifted y = i.shifted (x + y) := by
  obtain ⟨s, e⟩ := i
  simp [WorkingInterval.shifted]
  omega

theorem shifted_zero (i : WorkingInterval) : i.shifted 0 = i := by
  obtain ⟨s, e⟩ := i
  simp [WorkingInterval.shifted]

theorem map_shift_cancel (l : List WorkingInterval) (o : Int) :
    (l.map (fun i => i.shifted (-o))).map (fun i => i.shifted o) = l := by
  rw [List.map_map]
  have h : ∀ i ∈ l,
      ((fun i => i.shifted o) ∘ fun i => WorkingInterval.shifted i (-o)) i
        = id i := by
    intro i _
    simp only [Function.comp, shifted_shifted, id]
    rw [show -o + o = 0 by omega, shifted_zero]
  rw [List.map_congr_left h, List.map_id]

/-! Invariants of the merge sweep. -/

theorem united_covers {a b : WorkingInterval}
    (ha : a.start < a.end') (hb : b.start < b.end')
    (hab : a.start ≤ b.start) (hba : b.start ≤ a.end') (t : Int) :
    (a.united b).coversTime t ↔ (a.coversTime t ∨ b.coversTime t) := by
  rw [united_of_nonempty ha hb]
  show (min a.start b.start ≤ t ∧ t < max a.end' b.end') ↔ _
  unfold WorkingInterval.coversTime
  omega

theorem mergeGo_starts (rest : List WorkingInterval) :
    ∀ acc : WorkingInterval, acc.start < acc.end' →
      (∀ i ∈ rest, i.start < i.end') →
      rest.Pairwise (fun a b => a.start ≤ b.start) →
      (∀ i ∈ rest, acc.start ≤ i.start) →
      ∀ x ∈ mergeGo acc rest, acc.start ≤ x.start := by
  induction rest with
  | nil =>
    intro acc _ _ _ _ x hx
    simp only [mergeGo, List.mem_singleton] at hx
    subst hx
    exact le_refl _
  | cons b rest ih =>
    intro acc h1 h2 h3 h4 x hx
    have hbne : b.start < b.end' := h2 b (List.mem_cons_self b rest)
    have haccb : acc.start ≤ b.start := h4 b (List.mem_cons_self b rest)
    obtain ⟨h3head, h3tail⟩ := List.pairwise_cons.mp h3
    have h2' : ∀ i ∈ rest, i.start < i.end' :=
      fun i hi => h2 i (List.mem_cons_of_mem b hi)
    simp only [mergeGo] at hx
    by_cases hcond : b.start ≤ acc.end'
    · rw [if_pos hcond] at hx
      have huni : acc.united b = ⟨min acc.start b.start, max acc.end' b.end'⟩ :=
        united_of_nonempty h1 hbne
      have hstart : (acc.united b).start = acc.start := by
        rw [huni]
        show min acc.start b.start = acc.start
        omega
      have hne : (acc.united b).start < (acc.united b).end' := by
        rw [huni]
        show min acc.start b.start < max acc.end' b.end'
        omega
      have h4' : ∀ i ∈ rest, (acc.united b).start ≤ i.start := by
        intro i hi
        rw [hstart]
        exact le_trans haccb (h3head i hi)
      have hres := ih (acc.united b) hne h2' h3tail h4' x hx
      rw [hstart] at hres
      exact hres
    · rw [if_neg hcond] at hx
      rcases List.mem_cons.mp hx with rfl | hx'
      · exact le_refl _
      · have hres := ih b hbne h2' h3tail h3head x hx'
        omega

theorem mergeGo_nonempty (rest : List WorkingInterval) :
    ∀ acc : WorkingInterval, acc.start < acc.end' →
      (∀ i ∈ rest, i.start < i.end') →
      ∀ x ∈ mergeGo acc rest, x.start < x.end' := by
  induction rest with
  | nil =>
    intro acc h1 _ x hx
    simp only [mergeGo, List.mem_singleton] at hx
    subst hx
    exact h1
  | cons b rest ih =>
    intro acc h1 h2 x hx
    have hbne : b.start < b.end' := h2 b (List.mem_cons_self b rest)
    have h2' : ∀ i ∈ rest, i.start < i.end' :=
      fun i hi => h2 i (List.mem_cons_of_mem b hi)
    simp only [mergeGo] at hx
    by_cases hcond : b.start ≤ acc.end'
    · rw [if_pos hcond] at hx
      have hne : (acc.united b).start < (acc.united b).end' := by
        rw [united_of_nonempty h1 hbne]
        show min acc.start b.start < max acc.end' b.end'
        omega
      exact ih (acc.united b) hne h2' x hx
    · rw [if_neg hcond] at hx
      rcases List.mem_cons.mp hx with rfl | hx'
      · exact h1
      · exact ih b hbne h2' x hx'

theorem mergeGo_pairwise (rest : List WorkingInterval) :
    ∀ acc : WorkingInterval, acc.start < acc.end' →
      (∀ i ∈ rest, i.start < i.end') →
      rest.Pairwise (fun a b => a.start ≤ b.start) →
      (∀ i ∈ rest, acc.start ≤ i.start) →
      (mergeGo acc rest).Pairwise (fun a b => a.end' < b.start) := by
  induction rest with
  | nil =>
    intro acc _ _ _ _
    simp [mergeGo]
  | cons b rest ih =>
    intro acc h1 h2 h3 h4
    have hbne : b.start < b.end' := h2 b (List.mem_cons_self b rest)
    have haccb : acc.start ≤ b.start := h4 b (List.mem_cons_self b rest)
    obtain ⟨h3head, h3tail⟩ := List.pairwise_cons.mp h3
    have h2' : ∀ i ∈ rest, i.start < i.end' :=
      fun i hi => h2 i (List.mem_cons_of_mem b hi)
    simp only [mergeGo]
    by_cases hcond : b.start ≤ acc.end'
    · rw [if_pos hcond]
      have huni : acc.united b = ⟨min acc.start b.start, max acc.end' b.end'⟩ :=
        united_of_nonempty h1 hbne
      have hstart : (acc.united b).start = acc.start := by
        rw [huni]
        show min acc.start b.start = acc.start
        omega
      have hne : (acc.united b).start < (acc.united b).end' := by
        rw [huni]
        show min acc.start b.start < max acc.end' b.end'
        omega
      have h4' : ∀ i ∈ rest, (acc.united b).start ≤ i.start := by
        intro i hi
        rw [hstart]
        exact le_trans haccb (h3head i hi)
      exact ih (acc.united b) hne h2' h3tail h4'
    · rw [if_neg hcond]
      rw [List.pairwise_cons]
      constructor
      · intro x hx
        have hxs : b.start ≤ x.start :=
          mergeGo_starts rest b hbne h2' h3tail h3head x hx
        omega
      · exact ih b hbne h2' h3tail h3head

theorem mergeGo_covers (rest : List WorkingInterval) :
    ∀ acc : WorkingInterval, acc.start < acc.end' →
      (∀ i ∈ rest, i.start < i.end') →
      rest.Pairwise (fun a b => a.start ≤ b.start) →
      (∀ i ∈ rest, acc.start ≤ i.start) →
      ∀ t : Int, coveredAt (mergeGo acc rest) t ↔
        (acc.coversTime t ∨ coveredAt rest t) := by
  induction rest with
  | nil =>
    intro acc _ _ _ _ t
    simp [mergeGo, coveredAt]
  | cons b rest ih =>
    intro acc h1 h2 h3 h4 t
    have hbne : b.start < b.end' := h2 b (List.mem_cons_self b rest)
    have haccb : acc.start ≤ b.start := h4 b (List.mem_cons_self b rest)
    obtain ⟨h3head, h3tail⟩ := List.pairwise_cons.mp h3
    have h2' : ∀ i ∈ rest, i.start < i.end' :=
      fun i hi => h2 i (List.mem_cons_of_mem b hi)
    simp only [mergeGo]
    by_cases hcond : b.start ≤ acc.end'
    · rw [if_pos hcond]
      have huni : acc.united b = ⟨min acc.start b.start, max acc.end' b.end'⟩ :=
        united_of_nonempty h1 hbne
      have hstart : (acc.united b).start = acc.start := by
        rw [huni]
        show min acc.start b.start = acc.start
        omega
      have hne : (acc.united b).start < (acc.united b).end' := by
        rw [huni]
        show min acc.start b.start < max acc.end' b.end'
        omega
      have h4' : ∀ i ∈ rest, (acc.united b).start ≤ i.start := by
        intro i hi
        rw [hstart]
        exact le_trans haccb (h3head i hi)
      rw [ih (acc.united b) hne h2' h3tail h4' t,
        united_covers h1 hbne haccb hcond t, coveredAt_cons]
      tauto
    · rw [if_neg hcond]
      rw [coveredAt_cons, ih b hbne h2' h3tail h3head t, coveredAt_cons]

theorem mergeSweep_canon (l : List WorkingInterval)
    (hne : ∀ i ∈ l, i.start < i.end')
    (hsort : l.Pairwise (fun a b => a.start ≤ b.start)) :
    CanonList (mergeSweep l)
      ∧ ∀ t : Int, coveredAt (mergeSweep l) t ↔ coveredAt l t := by
  cases l with
  | nil =>
    refine ⟨⟨fun i hi => absurd hi (List.not_mem_nil i), List.Pairwise.nil⟩, ?_⟩
    intro t
    exact Iff.rfl
  | cons a rest =>
    obtain ⟨hhead, htail⟩ := List.pairwise_cons.mp hsort
    have h1 : a.start < a.end' := hne a (List.mem_cons_self a rest)
    have h2 : ∀ i ∈ rest, i.start < i.end' :=
      fun i hi => hne i (List.mem_cons_of_mem a hi)
    refine ⟨⟨?_, ?_⟩, fun t => ?_⟩
    · exact mergeGo_nonempty rest a h1 h2
    · exact mergeGo_pairwise rest a h1 h2 htail hhead
    · show coveredAt (mergeGo a rest) t ↔ _
      rw [mergeGo_covers rest a h1 h2 htail hhead t, coveredAt_cons]

/-- A canonical list is uniquely determined by the set of points it
covers. -/
theorem canon_unique (l1 : List WorkingInterval) :
    ∀ l2 : List WorkingInterval, CanonList l1 → CanonList l2 →
      (∀ t : Int, coveredAt l1 t ↔ coveredAt l2 t) → l1 = l2 := by
  induction l1 with
  | nil =>
    intro l2 _ hc2 hcov
    cases l2 with
    | nil => rfl
    | cons b l2' =>
      exfalso
      have hb : b.start < b.end' := hc2.1 b (List.mem_cons_self b l2')
      have hcb : coveredAt (b :: l2') b.start :=
        ⟨b, List.mem_cons_self b l2', le_refl _, hb⟩
      exact coveredAt_nil b.start ((hcov b.start).mpr hcb)
  | cons a l1' ih =>
    intro l2 hc1 hc2 hcov
    cases l2 with
    | nil =>
      exfalso
      have ha : a.start < a.end' := hc1.1 a (List.mem_cons_self a l1')
      have hca : coveredAt (a :: l1') a.start :=
        ⟨a, List.mem_cons_self a l1', le_refl _, ha⟩
      exact coveredAt_nil a.start ((hcov a.start).mp hca)
    | cons b l2' =>
      have ha : a.start < a.end' := hc1.1 a (List.mem_cons_self a l1')
      have hb : b.start < b.end' := hc2.1 b (List.mem_cons_self b l2')
      obtain ⟨h1gap, h1tailpw⟩ := List.pairwise_cons.mp hc1.2
      obtain ⟨h2gap, h2tailpw⟩ := List.pairwise_cons.mp hc2.2
      have h1tail : ∀ i ∈ l1', i.start < i.end' :=
        fun i hi => hc1.1 i (List.mem_cons_of_mem a hi)
      have h2tail : ∀ i ∈ l2', i.start < i.end' :=
        fun i hi => hc2.1 i (List.mem_cons_of_mem b hi)
      have hastart : a.start = b.start := by
        have hina : coveredAt (a :: l1') a.start :=
          ⟨a, List.mem_cons_self a l1', le_refl _, ha⟩
        obtain ⟨j, hj, hcj⟩ := (hcov a.start).mp hina
        have hba : b.start ≤ a.start := by
          rcases List.mem_cons.mp hj with rfl | hj'
          · exact hcj.1
          · have := h2gap j hj'
            obtain ⟨hcj1, hcj2⟩ := hcj
            omega
        have hinb : coveredAt (b :: l2') b.start :=
          ⟨b, List.mem_cons_self b l2', le_refl _, hb⟩
        obtain ⟨k, hk, hck⟩ := (hcov b.start).mpr hinb
        have hab : a.start ≤ b.start := by
          rcases List.mem_cons.mp hk with rfl | hk'
          · exact hck.1
          · have := h1gap k hk'
            obtain ⟨hck1, hck2⟩ := hck
            omega
        omega
      have haend : a.end' = b.end' := by
        by_contra hne2
        rcases lt_or_gt_of_ne hne2 with hlt | hgt
        · have hinb : coveredAt (b :: l2') a.end' :=
            ⟨b, List.mem_cons_self b l2', by omega, by omega⟩
          obtain ⟨j, hj, hcj⟩ := (hcov a.end').mpr hinb
          rcases List.mem_cons.mp hj with rfl | hj'
          · obtain ⟨hcj1, hcj2⟩ := hcj
            omega
          · have := h1gap j hj'
            obtain ⟨hcj1, hcj2⟩ := hcj
            omega
        · have hina : coveredAt (a :: l1') b.end' :=
            ⟨a, List.mem_cons_self a l1', by omega, by omega⟩
          obtain ⟨j, hj, hcj⟩ := (hcov b.end').mp hina
          rcases List.mem_cons.mp hj with rfl | hj'
          · obtain ⟨hcj1, hcj2⟩ := hcj
            omega
          · have := h2gap j hj'
            obtain ⟨hcj1, hcj2⟩ := hcj
            omega
      have hab : a = b := WorkingInterval.ext hastart haend
      have hcovtail : ∀ t : Int, coveredAt l1' t ↔ coveredAt l2' t := by
        intro t
        constructor
        · intro h
          obtain ⟨j, hj, hcj⟩ := h
          have htgt : a.end' < t := by
            have := h1gap j hj
            obtain ⟨hcj1, hcj2⟩ := hcj
            omega
          have hc : coveredAt (b :: l2') t :=
            (hcov t).mp ⟨j, List.mem_cons_of_mem a hj, hcj⟩
          obtain ⟨k, hk, hck⟩ := hc
          rcases List.mem_cons.mp hk with rfl | hk'
          · obtain ⟨hck1, hck2⟩ := hck
            omega
          · exact ⟨k, hk', hck⟩
        · intro h
          obtain ⟨j, hj, hcj⟩ := h
          have htgt : b.end' < t := by
            have := h2gap j hj
            obtain ⟨hcj1, hcj2⟩ := hcj
            omega
          have hc : coveredAt (a :: l1') t :=
            (hcov t).mpr ⟨j, List.mem_cons_of_mem b hj, hcj⟩
          obtain ⟨k, hk, hck⟩ := hc
          rcases List.mem_cons.mp hk with rfl | hk'
          · obtain ⟨hck1, hck2⟩ := hck
            omega
          · exact ⟨k, hk', hck⟩
      rw [hab, ih l2' ⟨h1tail, h1tailpw⟩ ⟨h2tail, h2tailpw⟩ hcovtail]

/-- `normalized` produces a canonical list covering exactly the points
covered by the input list. -/
theorem normalized_canon (s : WorkingIntervals) :
    CanonList s.normalized.list
      ∧ ∀ t : Int, coveredAt s.normalized.list t ↔ coveredAt s.list t := by
  have hperm : List.Perm
      (List.insertionSort intervalLE (s.list.filter (fun i => i.toBool)))
      (s.list.filter (fun i => i.toBool)) :=
    List.perm_insertionSort intervalLE _
  have hsorted : List.Sorted intervalLE
      (List.insertionSort intervalLE (s.list.filter (fun i => i.toBool))) :=
    List.sorted_insertionSort intervalLE _
  have hsorted' : (List.insertionSort intervalLE
      (s.list.filter (fun i => i.toBool))).Pairwise
      (fun a b => a.start ≤ b.start) := by
    refine hsorted.imp ?_
    intro a b hab
    unfold intervalLE at hab
    omega
  have hne : ∀ i ∈ List.insertionSort intervalLE
      (s.list.filter (fun i => i.toBool)), i.start < i.end' := by
    intro i hi
    have hi0 := hperm.mem_iff.mp hi
    have h2 := (List.mem_filter.mp hi0).2
    rw [toBool_iff] at h2
    exact h2
  have hms := mergeSweep_canon _ hne hsorted'
  refine ⟨hms.1, fun t => ?_⟩
  show coveredAt (mergeSweep (List.insertionSort intervalLE
    (s.list.filter (fun i => i.toBool)))) t ↔ _
  rw [hms.2 t, coveredAt_perm hperm t, coveredAt_filter_toBool s.list t]

/-- `normalized` depends only on the covered set of points. -/
theorem normalized_extensional (s1 s2 : WorkingIntervals)
    (h : ∀ t : Int, coveredAt s1.list t ↔ coveredAt s2.list t) :
    s1.normalized = s2.normalized := by
  have h1 := normalized_canon s1
  have h2 := normalized_canon s2
  apply WorkingIntervals.ext
  refine canon_unique _ _ h1.1 h2.1 ?_
  intro t
  rw [h1.2 t, h2.2 t]
  exact h t

/-- C4: `normalized` is idempotent for every input list of intervals. -/
theorem c4_normalized_idempotent (s : WorkingIntervals) :
    s.normalized.normalized = s.normalized := by
  have h1 := normalized_canon s
  have h2 := normalized_canon s.normalized
  apply WorkingIntervals.ext
  exact canon_unique _ _ h2.1 h1.1 h2.2

/-- Subtracting a window and intersecting with it decompose an interval
exactly: together the pieces cover precisely the interval's points. -/
theorem cut_inter_cover (w i : WorkingInterval) (t : Int) :
    (coveredAt (cutWindow w i) t ∨ (i.intersected w).coversTime t)
      ↔ i.coversTime t := by
  unfold cutWindow
  rw [coveredAt_filter_toBool]
  have hlist : coveredAt
      [WorkingInterval.mk i.start (min i.end' w.start),
        WorkingInterval.mk (max i.start w.end') i.end'] t
      ↔ ((i.start ≤ t ∧ t < min i.end' w.start)
        ∨ (max i.start w.end' ≤ t ∧ t < i.end')) := by
    rw [coveredAt_cons, coveredAt_cons]
    constructor
    · rintro (h | h | h)
      · exact Or.inl h
      · exact Or.inr h
      · exact absurd h (coveredAt_nil t)
    · rintro (h | h)
      · exact Or.inl h
      · exact Or.inr (Or.inl h)
  rw [hlist, intersected_eq]
  by_cases h : max i.start w.start < min i.end' w.end'
  · rw [if_pos h]
    show _ ∨ (max i.start w.start ≤ t ∧ t < min i.end' w.end')
      ↔ (i.start ≤ t ∧ t < i.end')
    omega
  · rw [if_neg h]
    show _ ∨ ((0 : Int) ≤ t ∧ t < (0 : Int)) ↔ (i.start ≤ t ∧ t < i.end')
    omega

/-- C5: replacing a day's intervals with the intervals extracted from that
same day reproduces the normalized schedule. -/
theorem c5_extract_replace_roundtrip (s : WorkingIntervals) (d : Int)
    (hd0 : 0 ≤ d) (hd6 : d ≤ 6) :
    ReplaceDayIntervals s d (ExtractDayIntervals s d) = s.normalized := by
  unfold ReplaceDayIntervals ExtractDayIntervals RemoveDayIntervals
  rw [map_shift_cancel]
  apply normalized_extensional
  intro t
  show coveredAt ((s.list.map (cutWindow (dayWindow d))).flatten
      ++ (s.list.map (fun i => i.intersected (dayWindow d))).filter
        (fun i => i.toBool)) t ↔ coveredAt s.list t
  rw [coveredAt_append, coveredAt_filter_toBool, coveredAt_flatten_map,
    coveredAt_map]
  constructor
  · rintro (⟨i, hi, hc⟩ | ⟨i, hi, hc⟩)
    · exact ⟨i, hi, (cut_inter_cover (dayWindow d) i t).mp (Or.inl hc)⟩
    · exact ⟨i, hi, (cut_inter_cover (dayWindow d) i t).mp (Or.inr hc)⟩
  · rintro ⟨i, hi, hc⟩
    rcases (cut_inter_cover (dayWindow d) i t).mpr hc with h | h
    · exact Or.inl ⟨i, hi, h⟩
    · exact Or.inr ⟨i, hi, h⟩

/-- C5 witness: the round trip evaluated at a concrete schedule and day
index 1, with an interval straddling the day boundary. -/
theorem c5_witness :
    (0 : Int) ≤ 1 ∧ (1 : Int) ≤ 6
      ∧ ReplaceDayIntervals ⟨[⟨10, 200000⟩]⟩ 1
          (ExtractDayIntervals ⟨[⟨10, 200000⟩]⟩ 1)
        = WorkingIntervals.normalized ⟨[⟨10, 200000⟩]⟩ :=
  ⟨by decide, by decide,
    c5_extract_replace_roundtrip ⟨[⟨10, 200000⟩]⟩ 1 (by decide) (by decide)⟩

end Business
